import Mathlib

/-!
Verification of the IronGantry manifest-validation and command-construction
layer (src/irongantry/validate.py and src/irongantry/engine.py), as a shallow
embedding over `List Char` strings.

Python semantics captured here:
* `str.strip()` removes leading and trailing whitespace.
* `str.split()` (no argument) splits on runs of whitespace, discarding empties.
* `re.match(r"^...$", s)`: the `$` anchor matches at the end of the string or
  just before a trailing newline.  None of the three regexes in validate.py can
  consume a newline in their bodies, so matching `s` is equivalent to strict
  matching of `s` with a single trailing newline removed (`dollarAdjust`).
* `shlex.split` (POSIX mode, whitespace_split) is a character state machine;
  an unterminated quote or a trailing escape raises `ValueError`, modelled as
  `none`.
-/

/-! ### Characters and Python string helpers -/

def newlineChar : Char := Char.ofNat 10

def backslashChar : Char := Char.ofNat 92

def squoteChar : Char := Char.ofNat 39

def dquoteChar : Char := Char.ofNat 34

def backquoteChar : Char := Char.ofNat 96

/-- ASCII whitespace, as recognised by `str.strip` / `str.split`. -/
def isPySpace (c : Char) : Bool :=
  c == ' ' || c == Char.ofNat 9 || c == newlineChar || c == Char.ofNat 13 ||
    c == Char.ofNat 11 || c == Char.ofNat 12

/-- Python `str.strip()`: drop leading and trailing whitespace. -/
def pyStrip (s : List Char) : List Char :=
  List.rdropWhile isPySpace (s.dropWhile isPySpace)

/-- Python `str.split()` with no separator: split on whitespace runs, no empty
words.  The accumulator holds the current word reversed. -/
def pySplitAux : List Char → List Char → List (List Char)
  | [], [] => []
  | [], w => [w.reverse]
  | c :: cs, w =>
      if isPySpace c then
        (if w.isEmpty then pySplitAux cs [] else w.reverse :: pySplitAux cs [])
      else pySplitAux cs (c :: w)

def pySplit (s : List Char) : List (List Char) := pySplitAux s []

/-- The effect of Python's `$` anchor for a pattern whose body cannot match a
newline: strict matching after removing one trailing newline. -/
def dollarAdjust (s : List Char) : List Char :=
  if s.getLast? = some newlineChar then s.dropLast else s

/-! ### Errors (Python exception types raised by the source) -/

inductive PyError where
  | valueError (msg : String)
  | fileExistsError
  | fileNotFoundError
  | indexError

/-- True exactly for a raised `ValueError` (the spec's `InvalidInput`). -/
def isValueError {α : Type} : Except PyError α → Bool
  | .error (.valueError _) => true
  | _ => false

def exceptIsOk {α : Type} : Except PyError α → Bool
  | .ok _ => true
  | _ => false

/-! ### validate.py: character classes and regexes -/

/-- Characters of `[A-Za-z0-9_-]` (`_PROJECT_NAME_RE`'s class). -/
def isProjectChar (c : Char) : Bool := c.isAlphanum || c == '_' || c == '-'

/-- `_PROJECT_NAME_RE.match name`: `^[A-Za-z0-9_-]+$`. -/
def projectNameMatch (s : List Char) : Bool :=
  let t := dollarAdjust s
  !t.isEmpty && t.all isProjectChar

/-- `[A-Za-z0-9]`: characters allowed at the ends of a package name. -/
def isNameEndChar (c : Char) : Bool := c.isAlphanum

/-- `[A-Za-z0-9._-]`: characters allowed inside a package name and in extras. -/
def isNameMidChar (c : Char) : Bool :=
  c.isAlphanum || c == '.' || c == '_' || c == '-'

/-- `[!<>=~]`: the characters that may open the version-specifier suffix. -/
def isCompChar (c : Char) : Bool :=
  c == '!' || c == '<' || c == '>' || c == '=' || c == '~'

/-- The name group `[A-Za-z0-9]([A-Za-z0-9._-]*[A-Za-z0-9])?`: non-empty,
alphanumeric first and last characters, mid characters from the wider class. -/
def matchesName (p : List Char) : Bool :=
  !p.isEmpty && isNameEndChar (p.headD ' ') && isNameEndChar (p.getLastD ' ') &&
    p.all isNameMidChar

/-- Split a list at every comma (model of the `(,...)*` structure of extras). -/
def splitComma : List Char → List (List Char)
  | [] => [[]]
  | c :: cs =>
      if c == ',' then [] :: splitComma cs
      else
        match splitComma cs with
        | [] => [[c]]
        | w :: ws => (c :: w) :: ws

/-- The extras body `[A-Za-z0-9._-]+(,[A-Za-z0-9._-]+)*`: one or more
comma-separated non-empty chunks of extras characters. -/
def matchesExtrasBody (b : List Char) : Bool :=
  (splitComma b).all (fun ch => !ch.isEmpty && ch.all isNameMidChar)

/-- The name followed by the optional bracketed extras group.  Neither part can
contain `[`, so the extras group, when present, starts at the first `[`. -/
def matchesNameExtras (p : List Char) : Bool :=
  match p.dropWhile (fun c => c != '[') with
  | [] => matchesName p
  | _ :: rest =>
      matchesName (p.takeWhile (fun c => c != '[')) && !rest.isEmpty &&
        rest.getLastD ' ' == ']' && matchesExtrasBody rest.dropLast

/-- `_PKG_NAME_RE` against a string with no trailing newline.  The version
suffix `[!<>=~].+`, when present, must start at the first comparator character
(the name and extras parts cannot contain one), with a non-empty newline-free
tail matched by `.+`. -/
def pkgBody (s : List Char) : Bool :=
  match s.dropWhile (fun c => !isCompChar c) with
  | [] => matchesNameExtras s
  | _ :: tail =>
      matchesNameExtras (s.takeWhile (fun c => !isCompChar c)) &&
        !tail.isEmpty && tail.all (fun c => c != newlineChar)

/-- `_PKG_NAME_RE.match s`, including the `$`-before-trailing-newline rule. -/
def pkgNameMatch (s : List Char) : Bool := pkgBody (dollarAdjust s)

/-- `\d+` then `.` then `\d+`, on a string with no trailing newline. -/
def pyVersionBody (s : List Char) : Bool :=
  !(s.takeWhile Char.isDigit).isEmpty &&
    match s.dropWhile Char.isDigit with
    | '.' :: b => !b.isEmpty && b.all Char.isDigit
    | _ => false

/-- `_PYTHON_VERSION_RE.match s`: `^\d+\.\d+$`.  (`\d` is modelled as an ASCII
digit.) -/
def pythonVersionMatch (s : List Char) : Bool := pyVersionBody (dollarAdjust s)

/-! ### validate.py: the validators -/

/-- `validate_project_name` (validate.py:19): no normalization, the name is
returned as-is. -/
def validate_project_name (name : List Char) : Except PyError (List Char) :=
  if name.isEmpty then
    .error (.valueError "Project name must be a non-empty string.")
  else if projectNameMatch name then .ok name
  else .error (.valueError "Invalid project name")

/-- `validate_package` (validate.py:31): strip, then match `_PKG_NAME_RE`. -/
def validate_package (pkg : List Char) : Except PyError (List Char) :=
  if (pyStrip pkg).isEmpty then
    .error (.valueError "Package specifier must be a non-empty string.")
  else if pkgNameMatch (pyStrip pkg) then .ok (pyStrip pkg)
  else .error (.valueError "Invalid package specifier")

def pythonLit : List Char := "python".toList

def python3Lit : List Char := "python3".toList

/-- `validate_entrypoint` (validate.py:41): strip, then the first
whitespace-separated token must be exactly `python` or `python3`.  The
`entry.split()[0]` indexing on an empty result would be an `IndexError`;
that case is unreachable because the stripped string is non-empty. -/
def validate_entrypoint (entry : List Char) : Except PyError (List Char) :=
  if (pyStrip entry).isEmpty then
    .error (.valueError "Entrypoint must be a non-empty string.")
  else
    match pySplit (pyStrip entry) with
    | [] => .error .indexError
    | w :: _ =>
        if w = pythonLit ∨ w = python3Lit then .ok (pyStrip entry)
        else .error (.valueError "Entrypoint must start with python or python3")

/-- `validate_python_version` (validate.py:54). -/
def validate_python_version (ver : List Char) : Except PyError (List Char) :=
  if (pyStrip ver).isEmpty then
    .error (.valueError "Python version must be a non-empty string.")
  else if pythonVersionMatch (pyStrip ver) then .ok (pyStrip ver)
  else .error (.valueError "Invalid python version")

/-! ### The manifest (a parsed TOML table) -/

/-- A TOML value as far as validate.py inspects one: a string, a list, or
anything else (the `isinstance` checks only distinguish these three shapes). -/
inductive Toml where
  | str (s : List Char)
  | list (xs : List Toml)
  | other

/-- A parsed manifest table.  The four known keys are held as optional fields;
`extraKeys` are the keys outside the allowed set (their values are never
inspected by the source, so only the key names are kept). -/
structure RawManifest where
  project : Option Toml
  python : Option Toml
  packages : Option Toml
  entrypoint : Option Toml
  extraKeys : List String

/-- `validate_project_name(config["project"])` including its
`isinstance(name, str)` guard. -/
def validateProjectToml : Toml → Except PyError (List Char)
  | .str s => validate_project_name s
  | _ => .error (.valueError "Project name must be a non-empty string.")

def validateEntrypointToml : Toml → Except PyError (List Char)
  | .str s => validate_entrypoint s
  | _ => .error (.valueError "Entrypoint must be a non-empty string.")

def validatePythonToml : Toml → Except PyError (List Char)
  | .str s => validate_python_version s
  | _ => .error (.valueError "Python version must be a non-empty string.")

def validatePackageToml : Toml → Except PyError (List Char)
  | .str s => validate_package s
  | _ => .error (.valueError "Package specifier must be a non-empty string.")

/-- `[validate_package(p) for p in pkgs]`: left to right, first error wins. -/
def validatePackagesList : List Toml → Except PyError (List (List Char))
  | [] => .ok []
  | v :: vs =>
      match validatePackageToml v with
      | .error e => .error e
      | .ok p =>
          match validatePackagesList vs with
          | .error e => .error e
          | .ok ps => .ok (p :: ps)

/-- validate.py:76: reject unknown keys. -/
def checkKeys (m : RawManifest) : Except PyError RawManifest :=
  if m.extraKeys.isEmpty then .ok m
  else .error (.valueError "Unknown manifest keys")

/-- validate.py:81: `project` is required; its validated value is not written
back into the table. -/
def checkProject (m : RawManifest) : Except PyError RawManifest :=
  match m.project with
  | none => .error (.valueError "Manifest must contain a project key.")
  | some v =>
      match validateProjectToml v with
      | .error e => .error e
      | .ok _ => .ok m

/-- validate.py:86: `entrypoint` is required and its normalized value is
written back. -/
def checkEntrypoint (m : RawManifest) : Except PyError RawManifest :=
  match m.entrypoint with
  | none => .error (.valueError "Manifest must contain an entrypoint key.")
  | some v =>
      match validateEntrypointToml v with
      | .error e => .error e
      | .ok e => .ok { m with entrypoint := some (.str e) }

/-- validate.py:91: `python` is optional; normalized in place when present. -/
def checkPython (m : RawManifest) : Except PyError RawManifest :=
  match m.python with
  | none => .ok m
  | some v =>
      match validatePythonToml v with
      | .error e => .error e
      | .ok p => .ok { m with python := some (.str p) }

/-- validate.py:95: `packages` is optional, must be a list, each element is
validated and the normalized list written back. -/
def checkPackages (m : RawManifest) : Except PyError RawManifest :=
  match m.packages with
  | none => .ok m
  | some (.list xs) =>
      match validatePackagesList xs with
      | .error e => .error e
      | .ok ps => .ok { m with packages := some (.list (ps.map .str)) }
  | some _ => .error (.valueError "packages must be a list of strings.")

/-- `validate_manifest` (validate.py:66): the checks in source order. -/
def validate_manifest (m : RawManifest) : Except PyError RawManifest :=
  match checkKeys m with
  | .error e => .error e
  | .ok m0 =>
      match checkProject m0 with
      | .error e => .error e
      | .ok m1 =>
          match checkEntrypoint m1 with
          | .error e => .error e
          | .ok m2 =>
              match checkPython m2 with
              | .error e => .error e
              | .ok m3 => checkPackages m3

/-! ### engine.py: shlex.split (POSIX mode, whitespace_split=True)

The lexer state: between tokens (`ws`), inside a word (`word`), inside single
or double quotes (`sq`, `dq`), or after a backslash met in a word (`escW`) or
inside double quotes (`escD`).  `tok` is the token being built, `q` records
whether the current token saw a quote (so `""` yields an empty token), `acc`
the emitted tokens. -/

inductive SState where
  | ws
  | word
  | sq
  | dq
  | escW
  | escD

/-- shlex whitespace: space, tab, carriage return, linefeed. -/
def isShlexSpace (c : Char) : Bool :=
  c == ' ' || c == Char.ofNat 9 || c == Char.ofNat 13 || c == newlineChar

/-- One character of `shlex.read_token`. -/
def shlexStep (st : SState) (tok : List Char) (q : Bool)
    (acc : List (List Char)) (c : Char) :
    SState × List Char × Bool × List (List Char) :=
  match st with
  | .ws =>
      if isShlexSpace c then
        (if !tok.isEmpty || q then (.ws, [], false, acc ++ [tok])
         else (.ws, tok, q, acc))
      else if c == backslashChar then (.escW, tok, q, acc)
      else if c == squoteChar then (.sq, tok, true, acc)
      else if c == dquoteChar then (.dq, tok, true, acc)
      else (.word, [c], q, acc)
  | .word =>
      if isShlexSpace c then
        (if !tok.isEmpty || q then (.ws, [], false, acc ++ [tok])
         else (.ws, tok, q, acc))
      else if c == squoteChar then (.sq, tok, true, acc)
      else if c == dquoteChar then (.dq, tok, true, acc)
      else if c == backslashChar then (.escW, tok, q, acc)
      else (.word, tok ++ [c], q, acc)
  | .sq =>
      if c == squoteChar then (.word, tok, true, acc)
      else (.sq, tok ++ [c], true, acc)
  | .dq =>
      if c == dquoteChar then (.word, tok, true, acc)
      else if c == backslashChar then (.escD, tok, true, acc)
      else (.dq, tok ++ [c], true, acc)
  | .escW => (.word, tok ++ [c], q, acc)
  | .escD =>
      if c == backslashChar || c == dquoteChar then (.dq, tok ++ [c], q, acc)
      else (.dq, tok ++ [backslashChar, c], q, acc)

/-- Run the lexer to the end of input.  At end of file an open quote or a
pending escape raises `ValueError` (`none`); otherwise the last token is
emitted if non-empty or quoted. -/
def shlexRun : List Char → SState → List Char → Bool → List (List Char) →
    Option (List (List Char))
  | [], st, tok, q, acc =>
      match st with
      | .ws => some (if !tok.isEmpty || q then acc ++ [tok] else acc)
      | .word => some (if !tok.isEmpty || q then acc ++ [tok] else acc)
      | _ => none
  | c :: cs, st, tok, q, acc =>
      match shlexStep st tok q acc c with
      | (st', tok', q', acc') => shlexRun cs st' tok' q' acc'

/-- `shlex.split(s)`. -/
def shlexSplit (s : List Char) : Option (List (List Char)) :=
  shlexRun s .ws [] false []

/-! ### engine.py: run, build, init -/

/-- The argument vector built by `IronGantryEngine.run` (engine.py:122-123):
`tokens = shlex.split(entry); tokens[0] = abs_python`.  `none` covers the
`ValueError` from an unbalanced entrypoint and the `IndexError` on an empty
token list, both raised before any process is launched. -/
def run_argv (entry : List Char) (absPython : List Char) :
    Option (List (List Char)) :=
  match shlexSplit entry with
  | none => none
  | some [] => none
  | some (_ :: rest) => some (absPython :: rest)

def installLit : List Char := "install".toList

def dashDashLit : List Char := "--".toList

/-- `config.get("packages", [])` on a validated manifest, projected to the
package strings (validation guarantees every element is a string). -/
def packagesOf (c : RawManifest) : List (List Char) :=
  match c.packages with
  | some (.list xs) =>
      xs.map (fun v => match v with | .str s => s | _ => [])
  | _ => []

/-- `IronGantryEngine.build` (engine.py:84-104), projected to the installer
invocation: `none` means pip is never invoked, `some cmd` is the exact
argument vector passed to `subprocess.run(cmd, shell=False)`. -/
def build_install_cmd (m : RawManifest) (pip : List Char) :
    Except PyError (Option (List (List Char))) :=
  match validate_manifest m with
  | .error e => .error e
  | .ok c =>
      let packages := packagesOf c
      .ok (if packages.isEmpty then none
           else some (pip :: installLit :: dashDashLit :: packages))

/-- The filesystem as `IronGantryEngine.init` sees it: whether the manifest
file exists and its bytes. -/
structure FS where
  manifestExists : Bool
  manifestContent : List Char

/-- The IronGantryfile written by init (engine.py:73-78). -/
def initContent (name : List Char) (pyMajor pyMinor : Nat) : List Char :=
  "project = \"".toList ++ name ++ "\"\npython = \"".toList ++
    (Nat.repr pyMajor).toList ++ ['.'] ++ (Nat.repr pyMinor).toList ++
    "\"\npackages = []\nentrypoint = \"python main.py\"\n".toList

/-- `IronGantryEngine.init` (engine.py:63-82): validate the name, then fail
with `FileExistsError` if the manifest exists, otherwise write it.  The
returned `FS` is the state after the call: on any failure it is the input
state untouched. -/
def initCmd (fs : FS) (name : List Char) (pyMajor pyMinor : Nat) :
    FS × Except PyError Unit :=
  match validate_project_name name with
  | .error e => (fs, .error e)
  | .ok n =>
      if fs.manifestExists then (fs, .error .fileExistsError)
      else ({ manifestExists := true,
              manifestContent := initContent n pyMajor pyMinor }, .ok ())

/-! ### engine.py: ship

A project tree and the walk of `IronGantryEngine.ship` (engine.py:170-193).
Archive paths are modelled as component lists (`os.path.normpath` of
`os.path.join(root, f)` for paths produced by `os.walk(".")` is exactly the
component path relative to the project root). -/

mutual
inductive DirTree where
  | mk (files : List (List Char)) (subdirs : DirList)
inductive DirList where
  | nil
  | cons (name : List Char) (tree : DirTree) (rest : DirList)
end

def envDirName : List Char := ".irongantry_env".toList

def pycacheName : List Char := "__pycache__".toList

def pycSuffix : List Char := ".pyc".toList

def pyoSuffix : List Char := ".pyo".toList

def shippedSuffix : List Char := "_shipped.zip".toList

/-- The in-place pruning of `dirs` (engine.py:174-177): keep `d` unless it is
in `exclude_dirs` (`{env_dir, "__pycache__", ".irongantry_env"}`) or starts
with a dot. -/
def dirKeepB (d : List Char) : Bool :=
  if d = envDirName ∨ d = pycacheName then false
  else if d.head? = some '.' then false
  else true

/-- The per-file skips (engine.py:178-182): compiled bytecode and anything
ending in `_shipped.zip`. -/
def fileKeepB (f : List Char) : Bool :=
  if pycSuffix.isSuffixOf f || pyoSuffix.isSuffixOf f then false
  else if shippedSuffix.isSuffixOf f then false
  else true

mutual
/-- Archive entries contributed by the walk from one directory, `pre` being
the component path of that directory relative to the project root. -/
def shipWalkTree : DirTree → List (List Char) → List (List (List Char))
  | .mk files subdirs, pre =>
      (files.filter fileKeepB).map (fun f => pre ++ [f]) ++
        shipWalkDirs subdirs pre
/-- Recurse into the kept subdirectories. -/
def shipWalkDirs : DirList → List (List Char) → List (List (List Char))
  | .nil, _ => []
  | .cons d t rest, pre =>
      (if dirKeepB d then shipWalkTree t (pre ++ [d]) else []) ++
        shipWalkDirs rest pre
end

/-- The fixed archive-internal paths of the bundled engine sources
(engine.py:154-160); `present` models the `os.path.isfile` guard on each
source path. -/
def bundleArcs : List (List (List Char)) :=
  [["irongantry".toList, "__init__.py".toList],
   ["irongantry".toList, "validate.py".toList],
   ["irongantry".toList, "engine.py".toList],
   ["irongantry".toList, "cli.py".toList],
   ["irongantry.py".toList]]

/-- Every archive entry written by `ship`: the walked project files, the
bundled engine files that exist, and the generated `bootstrap.py`. -/
def shipEntries (t : DirTree) (present : List (List Char) → Bool) :
    List (List (List Char)) :=
  shipWalkTree t [] ++ bundleArcs.filter present ++ [["bootstrap.py".toList]]

/-- Does the string contain the two-character sequence opening a command
substitution? -/
def hasDollarParen : List Char -> Bool
  | '$' :: '(' :: _ => true
  | _ :: cs => hasDollarParen cs
  | [] => false

/-- Shell metacharacters named by the spec: `;`, `|`, a backquote, `$(`. -/
def hasShellMeta (s : List Char) : Bool :=
  s.any (fun c => c == ';' || c == '|' || c == backquoteChar) || hasDollarParen s

/-- One archive entry keeps clear of the exclusions: no directory component is
the environment directory or hidden, and the file name does not end in
`_shipped.zip`. -/
def cleanEntry (p : List (List Char)) : Prop :=
  (∀ d ∈ p.dropLast, d ≠ envDirName ∧ d.head? ≠ some '.') ∧
    shippedSuffix.isSuffixOf (p.getLastD []) = false

/-! ### List helpers -/

theorem dropWhile_all_true {p : Char → Bool} {l : List Char}
    (h : ∀ c ∈ l, p c = true) : l.dropWhile p = [] :=
  List.dropWhile_eq_nil_iff.mpr h

theorem takeWhile_all_true {p : Char → Bool} {l : List Char}
    (h : ∀ c ∈ l, p c = true) : l.takeWhile p = l :=
  List.takeWhile_eq_self_iff.mpr h

theorem dropWhile_all_false {p : Char → Bool} {l : List Char}
    (h : ∀ c ∈ l, p c = false) : l.dropWhile p = l := by
  induction l with
  | nil => rfl
  | cons c cs ih =>
      rw [List.dropWhile_cons, h c (by simp)]
      simp

theorem dropWhile_head_false {p : Char → Bool} {l : List Char} {c : Char}
    {cs : List Char} (h : l.dropWhile p = c :: cs) : p c = false := by
  induction l with
  | nil => simp at h
  | cons a l ih =>
      rw [List.dropWhile_cons] at h
      by_cases hp : p a
      · exact ih (by simpa [hp] using h)
      · simp [hp] at h
        rw [← h.1]
        simpa using hp

theorem dropWhile_append_all {p : Char → Bool} {a : List Char}
    (b : List Char) (h : ∀ c ∈ a, p c = true) :
    (a ++ b).dropWhile p = b.dropWhile p := by
  induction a with
  | nil => rfl
  | cons c cs ih =>
      have hc : p c = true := h c (by simp)
      simp only [List.cons_append, List.dropWhile_cons, hc, if_pos]
      exact ih (fun x hx => h x (by simp [hx]))

theorem dropWhile_append_stop {p : Char → Bool} {a : List Char} {c : Char}
    (b : List Char) (ha : ∀ x ∈ a, p x = true) (hc : p c = false) :
    (a ++ c :: b).dropWhile p = c :: b := by
  rw [dropWhile_append_all (c :: b) ha, List.dropWhile_cons, hc]
  simp

theorem takeWhile_append_stop {p : Char → Bool} {a : List Char} {c : Char}
    (b : List Char) (ha : ∀ x ∈ a, p x = true) (hc : p c = false) :
    (a ++ c :: b).takeWhile p = a := by
  induction a with
  | nil => simp [List.takeWhile_cons, hc]
  | cons x xs ih =>
      have hx : p x = true := ha x (by simp)
      simp only [List.cons_append, List.takeWhile_cons, hx, if_pos]
      rw [ih (fun y hy => ha y (by simp [hy]))]

theorem dropWhile_append_of_ne_nil {p : Char → Bool} {a : List Char}
    (b : List Char) (h : a.dropWhile p ≠ []) :
    (a ++ b).dropWhile p = a.dropWhile p ++ b := by
  induction a with
  | nil => exact absurd rfl h
  | cons c cs ih =>
      by_cases hp : p c
      · have h' : cs.dropWhile p ≠ [] := by
          simpa [List.dropWhile_cons, hp] using h
        simp only [List.cons_append, List.dropWhile_cons, hp, if_pos]
        exact ih h'
      · simp [List.dropWhile_cons, hp]

theorem getLast?_append_right {a : List Char} (b : List Char) (h : b ≠ []) :
    (a ++ b).getLast? = b.getLast? := by
  induction a with
  | nil => rfl
  | cons c cs ih =>
      have hne : cs ++ b ≠ [] := by simp [h]
      obtain ⟨d, ds, hd⟩ := List.exists_cons_of_ne_nil hne
      rw [List.cons_append, hd, List.getLast?_cons_cons, ← hd, ih]

theorem rdropWhile_append_all {p : Char → Bool} {b : List Char}
    (a : List Char) (h : ∀ c ∈ b, p c = true) :
    List.rdropWhile p (a ++ b) = List.rdropWhile p a := by
  unfold List.rdropWhile
  rw [List.reverse_append, dropWhile_append_all a.reverse (by simpa using h)]

theorem rdropWhile_append_of_ne_nil {p : Char → Bool} {b : List Char}
    (a : List Char) (h : List.rdropWhile p b ≠ []) :
    List.rdropWhile p (a ++ b) = a ++ List.rdropWhile p b := by
  have hb : b.reverse.dropWhile p ≠ [] := by
    intro hx
    exact h (by simp [List.rdropWhile, hx])
  unfold List.rdropWhile
  rw [List.reverse_append, dropWhile_append_of_ne_nil a.reverse hb,
    List.reverse_append, List.reverse_reverse]

theorem rdropWhile_cons_neg {p : Char → Bool} {c : Char} (t : List Char)
    (hc : p c = false) :
    List.rdropWhile p (c :: t) = c :: List.rdropWhile p t := by
  by_cases ht : List.rdropWhile p t = []
  · have hall : ∀ x ∈ t, p x = true := List.rdropWhile_eq_nil_iff.mp ht
    have h1 : List.rdropWhile p (c :: t) = List.rdropWhile p [c] := by
      simpa using rdropWhile_append_all (b := t) [c] hall
    rw [h1, ht, List.rdropWhile_singleton, hc]
    simp
  · simpa using rdropWhile_append_of_ne_nil (b := t) [c] ht

theorem rdropWhile_all_false {p : Char → Bool} {l : List Char}
    (h : ∀ c ∈ l, p c = false) : List.rdropWhile p l = l := by
  unfold List.rdropWhile
  rw [dropWhile_all_false (by simpa using h), List.reverse_reverse]

theorem rdropWhile_ne_nil_of_head {p : Char → Bool} {c : Char}
    (t : List Char) (hc : p c = false) : List.rdropWhile p (c :: t) ≠ [] := by
  rw [rdropWhile_cons_neg t hc]
  simp

/-! ### pyStrip lemmas -/

theorem pyStrip_head_false {s : List Char} {c : Char} {cs : List Char}
    (h : pyStrip s = c :: cs) : isPySpace c = false := by
  unfold pyStrip at h
  obtain ⟨u, hu⟩ := List.rdropWhile_prefix isPySpace (s.dropWhile isPySpace)
  rw [h] at hu
  exact dropWhile_head_false (l := s) hu.symm

theorem pyStrip_idem (s : List Char) : pyStrip (pyStrip s) = pyStrip s := by
  unfold pyStrip
  have h1 : (pyStrip s).dropWhile isPySpace = pyStrip s := by
    cases hs : pyStrip s with
    | nil => rfl
    | cons c cs =>
        rw [List.dropWhile_cons, pyStrip_head_false hs]
        simp
  unfold pyStrip at h1
  rw [h1, List.rdropWhile_idempotent]

theorem pyStrip_last_not_space {s : List Char} {c : Char}
    (h : (pyStrip s).getLast? = some c) : isPySpace c = false := by
  have hne : pyStrip s ≠ [] := by
    intro hx
    rw [hx] at h
    simp at h
  have := List.rdropWhile_last_not isPySpace (s.dropWhile isPySpace)
      (by unfold pyStrip at hne; exact hne)
  rw [List.getLast?_eq_getLast _ hne] at h
  have hc : (pyStrip s).getLast hne = c := by injection h
  rw [← hc]
  unfold pyStrip
  simpa using this

theorem dollarAdjust_pyStrip (s : List Char) :
    dollarAdjust (pyStrip s) = pyStrip s := by
  unfold dollarAdjust
  split
  · next hl =>
      have := pyStrip_last_not_space hl
      simp [isPySpace, newlineChar] at this
  · rfl

theorem pyStrip_noop {s : List Char} (h : ∀ c ∈ s, isPySpace c = false) :
    pyStrip s = s := by
  unfold pyStrip
  rw [dropWhile_all_false h, rdropWhile_all_false h]

theorem pyStrip_padded {sp1 sp2 : List Char} (s : List Char)
    (h1 : ∀ c ∈ sp1, isPySpace c = true) (h2 : ∀ c ∈ sp2, isPySpace c = true)
    (hh : ∀ c, s.head? = some c → isPySpace c = false)
    (hl : ∀ c, s.getLast? = some c → isPySpace c = false) :
    pyStrip (sp1 ++ s ++ sp2) = s := by
  unfold pyStrip
  rw [List.append_assoc, dropWhile_append_all (s ++ sp2) h1]
  cases s with
  | nil =>
      simp only [List.nil_append]
      rw [dropWhile_all_true h2]
      rfl
  | cons c cs =>
      have hc : isPySpace c = false := hh c rfl
      rw [List.cons_append, List.dropWhile_cons, hc]
      simp only [Bool.false_eq_true, if_false]
      rw [← List.cons_append, rdropWhile_append_all (c :: cs) h2]
      rw [List.rdropWhile_eq_self_iff]
      intro hne
      have hx := hl ((c :: cs).getLast hne) (List.getLast?_eq_getLast _ hne)
      simp [hx]

/-! ### Character facts -/

theorem isPySpace_cases {c : Char} (h : isPySpace c = true) :
    c = ' ' ∨ c = Char.ofNat 9 ∨ c = newlineChar ∨ c = Char.ofNat 13 ∨
      c = Char.ofNat 11 ∨ c = Char.ofNat 12 := by
  simp only [isPySpace, Bool.or_eq_true, beq_iff_eq] at h
  tauto

theorem isCompChar_cases {c : Char} (h : isCompChar c = true) :
    c = '!' ∨ c = '<' ∨ c = '>' ∨ c = '=' ∨ c = '~' := by
  simp only [isCompChar, Bool.or_eq_true, beq_iff_eq] at h
  tauto

theorem isNameMidChar_not_space {c : Char} (h : isNameMidChar c = true) :
    isPySpace c = false := by
  cases hs : isPySpace c with
  | false => rfl
  | true =>
      rcases isPySpace_cases hs with rfl | rfl | rfl | rfl | rfl | rfl <;>
        exact absurd h (by decide)

theorem isNameMidChar_not_comp {c : Char} (h : isNameMidChar c = true) :
    isCompChar c = false := by
  cases hs : isCompChar c with
  | false => rfl
  | true =>
      rcases isCompChar_cases hs with rfl | rfl | rfl | rfl | rfl <;>
        exact absurd h (by decide)

theorem isNameMidChar_not_bracket {c : Char} (h : isNameMidChar c = true) :
    (c != '[') = true := by
  rw [bne_iff_ne]
  rintro rfl
  exact absurd h (by decide)

theorem isNameEndChar_mid {c : Char} (h : isNameEndChar c = true) :
    isNameMidChar c = true := by
  simp only [isNameEndChar] at h
  simp [isNameMidChar, h]

theorem isCompChar_not_space {c : Char} (h : isCompChar c = true) :
    isPySpace c = false := by
  cases hs : isPySpace c with
  | false => rfl
  | true =>
      rcases isPySpace_cases hs with rfl | rfl | rfl | rfl | rfl | rfl <;>
        exact absurd h (by decide)

/-! ### matchesName and extras facts -/

theorem matchesName_ne_nil {p : List Char} (h : matchesName p = true) :
    p ≠ [] := by
  simp only [matchesName, Bool.and_eq_true] at h
  intro hx
  rw [hx] at h
  simp at h

theorem matchesName_all_mid {p : List Char} (h : matchesName p = true) :
    ∀ c ∈ p, isNameMidChar c = true := by
  simp only [matchesName, Bool.and_eq_true, List.all_eq_true] at h
  exact h.2

theorem matchesName_head {p : List Char} (h : matchesName p = true) :
    isNameEndChar (p.headD ' ') = true := by
  simp only [matchesName, Bool.and_eq_true] at h
  exact h.1.1.2

theorem matchesName_last {p : List Char} (h : matchesName p = true) :
    isNameEndChar (p.getLastD ' ') = true := by
  simp only [matchesName, Bool.and_eq_true] at h
  exact h.1.2

theorem splitComma_ne_nil (b : List Char) : splitComma b ≠ [] := by
  induction b with
  | nil => simp [splitComma]
  | cons c cs ih =>
      unfold splitComma
      split
      · simp
      · cases h : splitComma cs with
        | nil => simp
        | cons w ws => simp

theorem mem_splitComma {c : Char} {b : List Char} (h : c ∈ b) :
    c = ',' ∨ ∃ ch ∈ splitComma b, c ∈ ch := by
  induction b with
  | nil => simp at h
  | cons x xs ih =>
      rcases List.mem_cons.mp h with rfl | hx
      · by_cases hcomma : c == ','
        · exact Or.inl (beq_iff_eq.mp hcomma)
        · right
          cases hs : splitComma xs with
          | nil => exact absurd hs (splitComma_ne_nil xs)
          | cons w ws =>
              refine ⟨c :: w, ?_, by simp⟩
              simp [splitComma, hcomma, hs]
      · rcases ih hx with hc | ⟨ch, hch, hcch⟩
        · exact Or.inl hc
        · right
          by_cases hcomma : x == ','
          · exact ⟨ch, by simp [splitComma, hcomma, hch], hcch⟩
          · cases hs : splitComma xs with
            | nil => exact absurd hs (splitComma_ne_nil xs)
            | cons w ws =>
                rw [hs] at hch
                rcases List.mem_cons.mp hch with rfl | hws
                · exact ⟨x :: ch, by simp [splitComma, hcomma, hs], by
                    simp [hcch]⟩
                · exact ⟨ch, by simp [splitComma, hcomma, hs, hws], hcch⟩

theorem matchesExtrasBody_chars {b : List Char}
    (hb : matchesExtrasBody b = true) :
    ∀ c ∈ b, isNameMidChar c = true ∨ c = ',' := by
  intro c hc
  rcases mem_splitComma hc with rfl | ⟨ch, hch, hcch⟩
  · exact Or.inr rfl
  · left
    simp only [matchesExtrasBody, List.all_eq_true, Bool.and_eq_true] at hb
    exact (hb ch hch).2 c hcch

theorem isNameEndChar_not_space {c : Char} (h : isNameEndChar c = true) :
    isPySpace c = false := by
  cases hs : isPySpace c with
  | false => rfl
  | true =>
      rcases isPySpace_cases hs with rfl | rfl | rfl | rfl | rfl | rfl <;>
        exact absurd h (by decide)

theorem matchesName_head?_not_space {n : List Char}
    (hn : matchesName n = true) :
    ∀ c, n.head? = some c → isPySpace c = false := by
  intro c hc
  cases n with
  | nil => simp at hc
  | cons x xs =>
      obtain rfl : x = c := by injection hc
      have := matchesName_head hn
      simp only [List.headD_cons] at this
      exact isNameEndChar_not_space this

theorem matchesName_last?_end {n : List Char} (hn : matchesName n = true) :
    ∀ c, n.getLast? = some c → isNameEndChar c = true := by
  intro c hc
  have := matchesName_last hn
  rw [List.getLastD_eq_getLast?, hc] at this
  exact this

theorem matchesName_last?_not_space {n : List Char}
    (hn : matchesName n = true) :
    ∀ c, n.getLast? = some c → isPySpace c = false :=
  fun c hc => isNameEndChar_not_space (matchesName_last?_end hn c hc)

theorem matchesNameExtras_of_name {n : List Char}
    (hn : matchesName n = true) : matchesNameExtras n = true := by
  have hnb : ∀ c ∈ n, (fun c => c != '[') c = true := fun c hc =>
    isNameMidChar_not_bracket (matchesName_all_mid hn c hc)
  unfold matchesNameExtras
  rw [dropWhile_all_true hnb]
  exact hn

theorem pkgBody_of_name {n : List Char} (hn : matchesName n = true) :
    pkgBody n = true := by
  have hnc : ∀ c ∈ n, (fun c => !isCompChar c) c = true := fun c hc => by
    simp [isNameMidChar_not_comp (matchesName_all_mid hn c hc)]
  unfold pkgBody
  rw [dropWhile_all_true hnc]
  exact matchesNameExtras_of_name hn

theorem pkgBody_version {n : List Char} {c : Char} {t : List Char}
    (hn : matchesName n = true) (hc : isCompChar c = true) (ht : t ≠ [])
    (hnl : ∀ x ∈ t, x ≠ newlineChar) : pkgBody (n ++ c :: t) = true := by
  have hnc : ∀ x ∈ n, (fun x => !isCompChar x) x = true := fun x hx => by
    simp [isNameMidChar_not_comp (matchesName_all_mid hn x hx)]
  have hcc : (fun x => !isCompChar x) c = false := by simp [hc]
  unfold pkgBody
  rw [dropWhile_append_stop t hnc hcc, takeWhile_append_stop t hnc hcc]
  show (matchesNameExtras n && !t.isEmpty &&
    t.all fun x => x != newlineChar) = true
  rw [matchesNameExtras_of_name hn]
  simp only [List.isEmpty_iff, List.all_eq_true, bne_iff_ne, Bool.true_and,
    Bool.and_eq_true, Bool.not_eq_true', decide_eq_false_iff_not]
  exact ⟨by simpa using ht, hnl⟩

theorem pkgBody_extras {n b : List Char} (hn : matchesName n = true)
    (hb : matchesExtrasBody b = true) :
    pkgBody (n ++ '[' :: (b ++ [']'])) = true := by
  have hmid := matchesName_all_mid hn
  have hbc := matchesExtrasBody_chars hb
  have hall : ∀ x ∈ n ++ '[' :: (b ++ [']']),
      (fun x => !isCompChar x) x = true := by
    intro x hx
    simp only [List.mem_append, List.mem_cons] at hx
    rcases hx with hx | rfl | hx
    · simp [isNameMidChar_not_comp (hmid x hx)]
    · decide
    · rcases hx with hx' | rfl | hx'
      · rcases hbc x hx' with hm | rfl
        · simp [isNameMidChar_not_comp hm]
        · decide
      · decide
      · exact absurd hx' (List.not_mem_nil x)
  unfold pkgBody
  rw [dropWhile_all_true hall]
  show matchesNameExtras (n ++ '[' :: (b ++ [']'])) = true
  have hnb : ∀ x ∈ n, (fun x => x != '[') x = true := fun x hx =>
    isNameMidChar_not_bracket (hmid x hx)
  have hbr : (fun x : Char => x != '[') '[' = false := by decide
  unfold matchesNameExtras
  rw [dropWhile_append_stop _ hnb hbr, takeWhile_append_stop _ hnb hbr]
  show (matchesName n && !(b ++ [']']).isEmpty &&
    ((b ++ [']']).getLastD ' ' == ']') &&
      matchesExtrasBody (b ++ [']']).dropLast) = true
  rw [hn, List.dropLast_concat, List.getLastD_concat, hb]
  simp

/-- Common acceptance shape of `validate_package`: if stripping yields `n`,
`n` is non-empty, does not end in a newline and satisfies the regex body, the
specifier is accepted as `n`. -/
theorem validate_package_strip_ok {s n : List Char} (hstrip : pyStrip s = n)
    (hne : n ≠ []) (hbody : pkgBody n = true)
    (hlast : n.getLast? ≠ some newlineChar) :
    validate_package s = .ok n := by
  have hadj : dollarAdjust n = n := by
    unfold dollarAdjust
    rw [if_neg hlast]
  have hie : n.isEmpty = false := by simp [List.isEmpty_iff, hne]
  have hm : pkgNameMatch n = true := by
    unfold pkgNameMatch
    rw [hadj]
    exact hbody
  unfold validate_package
  rw [hstrip, hie, hm]
  simp

/-- C3: package-specifier validation accepts (after stripping leading and
trailing whitespace) every specifier of the forms `name`,
`name[extra1,extra2]` and `name>=1.0` whose name and extras satisfy the
allow-list grammar, and fails with a `ValueError` (the spec's `InvalidInput`)
on every specifier containing a shell metacharacter (`;`, `|`, backquote,
`$(`) that does not match the grammar. -/
theorem c3_package_grammar :
    (∀ sp1 n sp2 : List Char, (∀ c ∈ sp1, isPySpace c = true) →
      (∀ c ∈ sp2, isPySpace c = true) → matchesName n = true →
      validate_package (sp1 ++ n ++ sp2) = .ok n) ∧
    (∀ n b : List Char, matchesName n = true → matchesExtrasBody b = true →
      validate_package (n ++ '[' :: (b ++ [']'])) =
        .ok (n ++ '[' :: (b ++ [']']))) ∧
    (∀ n : List Char, matchesName n = true →
      validate_package (n ++ ">=1.0".toList) = .ok (n ++ ">=1.0".toList)) ∧
    (∀ s : List Char, hasShellMeta s = true →
      pkgNameMatch (pyStrip s) = false →
      isValueError (validate_package s) = true) := by
  refine ⟨?_, ?_, ?_, ?_⟩
  · intro sp1 n sp2 h1 h2 hn
    have hstrip : pyStrip (sp1 ++ n ++ sp2) = n :=
      pyStrip_padded n h1 h2 (matchesName_head?_not_space hn)
        (matchesName_last?_not_space hn)
    refine validate_package_strip_ok hstrip (matchesName_ne_nil hn)
      (pkgBody_of_name hn) ?_
    intro hl
    exact absurd (matchesName_last?_end hn _ hl) (by decide)
  · intro n b hn hb
    have hshape : n ++ '[' :: (b ++ [']']) = (n ++ '[' :: b) ++ [']'] := by
      simp
    have hnospace : ∀ c ∈ n ++ '[' :: (b ++ [']']), isPySpace c = false := by
      intro c hc
      simp only [List.mem_append, List.mem_cons] at hc
      rcases hc with hc | rfl | hc | rfl | hc
      · exact isNameMidChar_not_space (matchesName_all_mid hn c hc)
      · decide
      · rcases matchesExtrasBody_chars hb c hc with hm | rfl
        · exact isNameMidChar_not_space hm
        · decide
      · decide
      · exact absurd hc (List.not_mem_nil c)
    have hlast : (n ++ '[' :: (b ++ [']'])).getLast? ≠ some newlineChar := by
      rw [hshape, List.getLast?_concat]
      decide
    exact validate_package_strip_ok (pyStrip_noop hnospace) (by simp)
      (pkgBody_extras hn hb) hlast
  · intro n hn
    have hv : (">=1.0".toList : List Char) = '>' :: "=1.0".toList := rfl
    rw [hv]
    have htail : ∀ c ∈ ('>' :: "=1.0".toList : List Char),
        isPySpace c = false := by decide
    have hnospace : ∀ c ∈ n ++ '>' :: "=1.0".toList, isPySpace c = false := by
      intro c hc
      rcases List.mem_append.mp hc with hc | hc
      · exact isNameMidChar_not_space (matchesName_all_mid hn c hc)
      · exact htail c hc
    have hbody : pkgBody (n ++ '>' :: "=1.0".toList) = true :=
      pkgBody_version hn (by decide) (by decide) (by decide)
    have hlast : (n ++ '>' :: "=1.0".toList).getLast? ≠ some newlineChar := by
      rw [getLast?_append_right _ (by simp)]
      decide
    exact validate_package_strip_ok (pyStrip_noop hnospace) (by simp) hbody
      hlast
  · intro s _hmeta hnomatch
    unfold validate_package
    split
    · rfl
    · rw [hnomatch]
      rfl

/-- Concrete instances of each clause of the C3 theorem. -/
theorem c3_package_grammar_witness :
    validate_package ([' '] ++ "requests".toList ++ [' ']) =
      .ok ("requests".toList) ∧
    validate_package ("name".toList ++ '[' :: ("extra1,extra2".toList ++
      [']'])) = .ok ("name".toList ++ '[' :: ("extra1,extra2".toList ++
      [']'])) ∧
    validate_package ("name".toList ++ ">=1.0".toList) =
      .ok ("name".toList ++ ">=1.0".toList) ∧
    isValueError (validate_package ("foo;rm".toList)) = true :=
  ⟨c3_package_grammar.1 [' '] ("requests".toList) [' '] (by decide)
      (by decide) (by decide),
    c3_package_grammar.2.1 ("name".toList) ("extra1,extra2".toList)
      (by decide) (by decide),
    c3_package_grammar.2.2.1 ("name".toList) (by decide),
    c3_package_grammar.2.2.2 ("foo;rm".toList) (by decide) (by decide)⟩

/-- C9 as stated is false: with the valid name `a`, the comparator `>` and
the non-empty tail `" "` (a single space), the specifier `"a> "` is rejected,
because stripping removes the trailing space and `.+` then has nothing left
to match. -/
theorem c9_counterexample :
    matchesName ['a'] = true ∧ isCompChar '>' = true ∧
    ([' '] : List Char) ≠ [] ∧
    isValueError (validate_package (['a'] ++ '>' :: [' '])) = true :=
  ⟨by decide, by decide, by decide, by decide⟩

/-- C9 amended: after a valid name and a comparator character, any tail is
accepted provided that, once its trailing whitespace is stripped, it is
non-empty and newline-free; the returned specifier carries the stripped
tail.  In particular tails containing `;`, `|`, backquotes, `$(`, or interior
spaces are all accepted. -/
theorem c9_version_tail_unchecked (n : List Char) (c : Char) (t : List Char)
    (hn : matchesName n = true) (hc : isCompChar c = true)
    (ht : List.rdropWhile isPySpace t ≠ [])
    (hnl : ∀ x ∈ List.rdropWhile isPySpace t, x ≠ newlineChar) :
    validate_package (n ++ c :: t) =
      .ok (n ++ c :: List.rdropWhile isPySpace t) := by
  have hcs : isPySpace c = false := isCompChar_not_space hc
  have hstrip : pyStrip (n ++ c :: t) =
      n ++ c :: List.rdropWhile isPySpace t := by
    unfold pyStrip
    have hdw : (n ++ c :: t).dropWhile isPySpace = n ++ c :: t := by
      cases n with
      | nil => simp [List.dropWhile_cons, hcs]
      | cons x xs =>
          have hx : isPySpace x = false := matchesName_head?_not_space hn x rfl
          simp [List.dropWhile_cons, hx]
    rw [hdw, rdropWhile_append_of_ne_nil n (rdropWhile_ne_nil_of_head t hcs),
      rdropWhile_cons_neg t hcs]
  refine validate_package_strip_ok hstrip (by simp)
    (pkgBody_version hn hc ht hnl) ?_
  rw [getLast?_append_right _ (by simp)]
  cases htl : List.rdropWhile isPySpace t with
  | nil => exact absurd htl ht
  | cons y ys =>
      intro hl
      rw [List.getLast?_cons_cons] at hl
      have hmem := List.mem_of_mem_getLast? hl
      rw [← htl] at hmem
      exact absurd rfl (hnl _ hmem)

/-- Concrete instance: every shell metacharacter is accepted after `>`. -/
theorem c9_version_tail_witness :
    validate_package ("requests".toList ++ '>' :: "=2.0; rm|`x` $(y)".toList)
      = .ok ("requests".toList ++ '>' ::
        List.rdropWhile isPySpace ("=2.0; rm|`x` $(y)".toList)) :=
  c9_version_tail_unchecked _ _ _ (by decide) (by decide) (by decide)
    (by decide)

/-- C5 as stated is false: the string `"a\n"` contains a newline, which is
outside `[A-Za-z0-9_-]`, yet project-name validation accepts it unchanged,
because Python's `$` anchor also matches just before a trailing newline. -/
theorem c5_counterexample :
    newlineChar ∈ ('a' :: [newlineChar]) ∧
    isProjectChar newlineChar = false ∧
    validate_project_name ('a' :: [newlineChar]) =
      .ok ('a' :: [newlineChar]) :=
  ⟨by decide, by decide, rfl⟩

/-- C5 amended: project-name validation accepts `s` (returning it unchanged)
exactly when `s`, after dropping a single trailing newline (Python's `$`
matches there), is non-empty and contains only `[A-Za-z0-9_-]` characters;
every other string is rejected, and every rejection is a `ValueError` (the
spec's `InvalidInput`). -/
theorem c5_project_name (s : List Char) :
    (validate_project_name s = .ok s ↔
      dollarAdjust s ≠ [] ∧ ∀ c ∈ dollarAdjust s, isProjectChar c = true) ∧
    (∀ r, validate_project_name s = .ok r → r = s) ∧
    (∀ e, validate_project_name s = .error e → ∃ msg, e = .valueError msg) := by
  have hpm : projectNameMatch s = true ↔
      (dollarAdjust s ≠ [] ∧ ∀ c ∈ dollarAdjust s, isProjectChar c = true) := by
    unfold projectNameMatch
    simp [List.isEmpty_iff, List.all_eq_true]
  unfold validate_project_name
  split
  · next h0 =>
      have hs : s = [] := List.isEmpty_iff.mp h0
      subst hs
      refine ⟨?_, ?_, ?_⟩
      · constructor
        · intro hcontra
          exact Except.noConfusion hcontra
        · rintro ⟨h1, -⟩
          exact absurd rfl h1
      · intro r hr
        exact Except.noConfusion hr
      · intro e he
        injection he with h1
        exact ⟨_, h1.symm⟩
  · next h0 =>
      split
      · next hm =>
          refine ⟨?_, ?_, ?_⟩
          · simp only [true_iff, eq_self_iff_true]
            exact hpm.mp hm
          · intro r hr
            injection hr with h1
            exact h1.symm
          · intro e he
            exact Except.noConfusion he
      · next hm =>
          have hf : ¬ projectNameMatch s = true := hm
          refine ⟨?_, ?_, ?_⟩
          · constructor
            · intro hcontra
              exact Except.noConfusion hcontra
            · intro hr
              exact absurd (hpm.mpr hr) hf
          · intro r hr
            exact Except.noConfusion hr
          · intro e he
            injection he with h1
            exact ⟨_, h1.symm⟩

/-- Concrete instances of the amended C5 theorem: `my-app` is accepted
unchanged and `a b` is rejected with a `ValueError`. -/
theorem c5_project_name_witness :
    validate_project_name ("my-app".toList) = .ok ("my-app".toList) ∧
    (∃ msg, PyError.valueError "Invalid project name" =
      PyError.valueError msg) :=
  ⟨(c5_project_name ("my-app".toList)).1.mpr ⟨by decide, by decide⟩,
    (c5_project_name ("a b".toList)).2.2 _ rfl⟩

/-! ### shlex facts -/

/-- The lexer invariant: a token has been emitted, or the current token is
non-empty, or the current token saw a quote. -/
def shlexInv (tok : List Char) (q : Bool) (acc : List (List Char)) : Prop :=
  acc ≠ [] ∨ tok ≠ [] ∨ q = true

theorem shlexStep_inv {st : SState} {tok : List Char} {q : Bool}
    {acc : List (List Char)} (c : Char) (h : shlexInv tok q acc) :
    shlexInv (shlexStep st tok q acc c).2.1 (shlexStep st tok q acc c).2.2.1
      (shlexStep st tok q acc c).2.2.2 := by
  cases st <;> unfold shlexStep <;> dsimp only
  case ws =>
      split
      · split
        · exact Or.inl (by simp)
        · exact h
      · split
        · exact h
        · split
          · exact Or.inr (Or.inr rfl)
          · split
            · exact Or.inr (Or.inr rfl)
            · exact Or.inr (Or.inl (by simp))
  case word =>
      split
      · split
        · exact Or.inl (by simp)
        · exact h
      · split
        · exact Or.inr (Or.inr rfl)
        · split
          · exact Or.inr (Or.inr rfl)
          · split
            · exact h
            · exact Or.inr (Or.inl (by simp))
  case sq =>
      split
      · exact Or.inr (Or.inr rfl)
      · exact Or.inr (Or.inr rfl)
  case dq =>
      split
      · exact Or.inr (Or.inr rfl)
      · split
        · exact Or.inr (Or.inr rfl)
        · exact Or.inr (Or.inr rfl)
  case escW =>
      rcases h with h | h | h
      · exact Or.inl h
      · exact Or.inr (Or.inl (by simp [h]))
      · exact Or.inr (Or.inr h)
  case escD =>
      split
      · rcases h with h | h | h
        · exact Or.inl h
        · exact Or.inr (Or.inl (by simp [h]))
        · exact Or.inr (Or.inr h)
      · rcases h with h | h | h
        · exact Or.inl h
        · exact Or.inr (Or.inl (by simp [h]))
        · exact Or.inr (Or.inr h)

theorem shlexRun_ne_nil :
    ∀ (cs : List Char) (st : SState) (tok : List Char) (q : Bool)
      (acc : List (List Char)) (l : List (List Char)),
      shlexInv tok q acc → shlexRun cs st tok q acc = some l → l ≠ [] := by
  intro cs
  induction cs with
  | nil =>
      intro st tok q acc l hinv hrun
      cases st <;> simp only [shlexRun] at hrun
      case sq => exact Option.noConfusion hrun
      case dq => exact Option.noConfusion hrun
      case escW => exact Option.noConfusion hrun
      case escD => exact Option.noConfusion hrun
      case ws =>
          split at hrun
          · injection hrun with h1
            rw [← h1]
            simp
          · next hcond =>
              injection hrun with h1
              rw [← h1]
              rcases hinv with h | h | h
              · exact h
              · exact absurd (by simp [h]) hcond
              · exact absurd (by simp [h]) hcond
      case word =>
          split at hrun
          · injection hrun with h1
            rw [← h1]
            simp
          · next hcond =>
              injection hrun with h1
              rw [← h1]
              rcases hinv with h | h | h
              · exact h
              · exact absurd (by simp [h]) hcond
              · exact absurd (by simp [h]) hcond
  | cons c cs ih =>
      intro st tok q acc l hinv hrun
      simp only [shlexRun] at hrun
      exact ih _ _ _ _ _ (shlexStep_inv c hinv) hrun

/-! ### pySplit facts -/

theorem pySplitAux_acc (cs : List Char) :
    ∀ w : List Char, w ≠ [] →
      ∃ l rest, pySplitAux cs w = (w.reverse ++ l) :: rest := by
  induction cs with
  | nil =>
      intro w hw
      refine ⟨[], [], ?_⟩
      cases w with
      | nil => exact absurd rfl hw
      | cons x xs => simp [pySplitAux]
  | cons c cs ih =>
      intro w hw
      by_cases hc : isPySpace c
      · refine ⟨[], pySplitAux cs [], ?_⟩
        have hwe : w.isEmpty = false := by simp [List.isEmpty_iff, hw]
        simp [pySplitAux, hc, hwe]
      · obtain ⟨l, rest, hl⟩ := ih (c :: w) (by simp)
        refine ⟨c :: l, rest, ?_⟩
        rw [show pySplitAux (c :: cs) w = pySplitAux cs (c :: w) from by
          simp [pySplitAux, hc]]
        rw [hl]
        simp

theorem pySplit_head {c : Char} (cs : List Char) (hc : isPySpace c = false) :
    ∃ l rest, pySplit (c :: cs) = (c :: l) :: rest := by
  obtain ⟨l, rest, hl⟩ := pySplitAux_acc cs [c] (by simp)
  refine ⟨l, rest, ?_⟩
  rw [show pySplit (c :: cs) = pySplitAux cs [c] from by
    simp [pySplit, pySplitAux, hc]]
  simpa using hl

/-- C1: for every validated entrypoint that `shlex.split` tokenizes
successfully, the token list is non-empty and the argument vector built by
the run operation is exactly the interpreter path followed by the remaining
shell-split tokens unchanged. -/
theorem c1_run_token_substitution (entry e p : List Char)
    (toks : List (List Char)) (hv : validate_entrypoint entry = .ok e)
    (hs : shlexSplit e = some toks) :
    toks ≠ [] ∧ run_argv e p = some (p :: toks.tail) := by
  unfold validate_entrypoint at hv
  split at hv
  · exact Except.noConfusion hv
  · next hne =>
      split at hv
      · exact Except.noConfusion hv
      · next w ws hsp =>
          split at hv
          · next hw =>
              have he : e = pyStrip entry := by
                injection hv with h1
                exact h1.symm
              subst he
              have hnn : pyStrip entry ≠ [] := by
                intro hx
                exact hne (by simp [hx])
              obtain ⟨c, cs, hcc⟩ := List.exists_cons_of_ne_nil hnn
              have hcsp : isPySpace c = false := pyStrip_head_false hcc
              rw [hcc] at hsp hs ⊢
              obtain ⟨l, rest, hl⟩ := pySplit_head cs hcsp
              rw [hl] at hsp
              have hwc : c :: l = w := by
                injection hsp with h1 h2
              have hcp : c = 'p' := by
                rcases hw with hw | hw
                · rw [hw] at hwc
                  have h2 := hwc.trans
                    (show pythonLit = 'p' :: "ython".toList from rfl)
                  injection h2 with h3 h4
                · rw [hw] at hwc
                  have h2 := hwc.trans
                    (show python3Lit = 'p' :: "ython3".toList from rfl)
                  injection h2 with h3 h4
              subst hcp
              have hrun : shlexRun cs .word ['p'] false [] = some toks := hs
              have htoks : toks ≠ [] :=
                shlexRun_ne_nil cs .word ['p'] false [] toks
                  (Or.inr (Or.inl (by simp))) hrun
              refine ⟨htoks, ?_⟩
              unfold run_argv
              rw [hs]
              cases toks with
              | nil => exact absurd rfl htoks
              | cons t ts => rfl
          · exact Except.noConfusion hv

/-- Concrete instance: the spec's own example, where an argument merely
containing the substring `python` passes through unchanged. -/
theorem c1_run_token_substitution_witness :
    validate_entrypoint ("python3 app.py --name=python_helper".toList) =
      .ok ("python3 app.py --name=python_helper".toList) ∧
    shlexSplit ("python3 app.py --name=python_helper".toList) =
      some ["python3".toList, "app.py".toList,
        "--name=python_helper".toList] ∧
    run_argv ("python3 app.py --name=python_helper".toList)
        ("/env/bin/python".toList) =
      some ["/env/bin/python".toList, "app.py".toList,
        "--name=python_helper".toList] :=
  ⟨rfl, rfl,
    (c1_run_token_substitution
      ("python3 app.py --name=python_helper".toList)
      ("python3 app.py --name=python_helper".toList)
      ("/env/bin/python".toList)
      ["python3".toList, "app.py".toList, "--name=python_helper".toList]
      rfl rfl).2⟩

/-- C10: the entrypoint `python "a` passes entrypoint validation (only the
first whitespace token is checked), yet `shlex.split` fails on the unclosed
quote, so the run operation errors out before any interpreter substitution
or process launch. -/
theorem c10_validated_entrypoint_unsplittable :
    validate_entrypoint ("python \"a".toList) =
      .ok ("python \"a".toList) ∧
    shlexSplit ("python \"a".toList) = none ∧
    run_argv ("python \"a".toList) ("/env/bin/python".toList) = none :=
  ⟨rfl, rfl, rfl⟩

/-! ### Manifest validation facts -/

theorem validateProjectToml_error {v : Toml} {e : PyError}
    (h : validateProjectToml v = .error e) : ∃ msg, e = .valueError msg := by
  cases v with
  | str s =>
      have h' : validate_project_name s = .error e := h
      unfold validate_project_name at h'
      split at h'
      · injection h' with h1
        exact ⟨_, h1.symm⟩
      · split at h'
        · exact Except.noConfusion h'
        · injection h' with h1
          exact ⟨_, h1.symm⟩
  | list xs =>
      have h' : Except.error (α := List Char)
          (PyError.valueError "Project name must be a non-empty string.") =
            .error e := h
      injection h' with h1
      exact ⟨_, h1.symm⟩
  | other =>
      have h' : Except.error (α := List Char)
          (PyError.valueError "Project name must be a non-empty string.") =
            .error e := h
      injection h' with h1
      exact ⟨_, h1.symm⟩

/-- C4: manifest validation fails on every mapping that lacks `project` or
lacks `entrypoint`, and on every mapping with a key outside the allowed set
{project, python, packages, entrypoint}, regardless of all other fields; each
such failure is a `ValueError` (the spec's `InvalidInput`). -/
theorem c4_fail_closed (m : RawManifest)
    (h : m.project = none ∨ m.entrypoint = none ∨ m.extraKeys ≠ []) :
    isValueError (validate_manifest m) = true := by
  rcases h with hp | he | hx
  · by_cases hk : m.extraKeys.isEmpty = true
    · simp [validate_manifest, checkKeys, checkProject, hk, hp, isValueError]
    · simp [validate_manifest, checkKeys, hk, isValueError]
  · by_cases hk : m.extraKeys.isEmpty = true
    · cases hpj : m.project with
      | none =>
          simp [validate_manifest, checkKeys, checkProject, hk, hpj,
            isValueError]
      | some v =>
          cases hv : validateProjectToml v with
          | error e =>
              obtain ⟨msg, rfl⟩ := validateProjectToml_error hv
              simp [validate_manifest, checkKeys, checkProject, hk, hpj, hv,
                isValueError]
          | ok r =>
              simp [validate_manifest, checkKeys, checkProject,
                checkEntrypoint, hk, hpj, hv, he, isValueError]
    · simp [validate_manifest, checkKeys, hk, isValueError]
  · have hk : m.extraKeys.isEmpty = false := by
      simp [List.isEmpty_iff, hx]
    simp [validate_manifest, checkKeys, hk, isValueError]

/-- Concrete instance: a manifest with only an unknown key `version` (so
`project` and `entrypoint` are also missing) is rejected. -/
theorem c4_fail_closed_witness :
    isValueError (validate_manifest
      ⟨none, none, none, none, ["version"]⟩) = true :=
  c4_fail_closed ⟨none, none, none, none, ["version"]⟩ (Or.inl rfl)

/-! ### Idempotence of the individual validators -/

theorem validate_package_idem {p q : List Char}
    (h : validate_package p = .ok q) : validate_package q = .ok q := by
  unfold validate_package at h
  split at h
  · exact Except.noConfusion h
  · next hne =>
      split at h
      · next hm =>
          have hq : q = pyStrip p := by
            injection h with h1
            exact h1.symm
          subst hq
          unfold validate_package
          rw [pyStrip_idem p, if_neg hne, if_pos hm]
      · exact Except.noConfusion h

theorem validate_python_version_idem {p q : List Char}
    (h : validate_python_version p = .ok q) :
    validate_python_version q = .ok q := by
  unfold validate_python_version at h
  split at h
  · exact Except.noConfusion h
  · next hne =>
      split at h
      · next hm =>
          have hq : q = pyStrip p := by
            injection h with h1
            exact h1.symm
          subst hq
          unfold validate_python_version
          rw [pyStrip_idem p, if_neg hne, if_pos hm]
      · exact Except.noConfusion h

theorem validate_entrypoint_idem {s e : List Char}
    (h : validate_entrypoint s = .ok e) : validate_entrypoint e = .ok e := by
  unfold validate_entrypoint at h
  split at h
  · exact Except.noConfusion h
  · next hne =>
      split at h
      · exact Except.noConfusion h
      · next w ws hsp =>
          split at h
          · next hw =>
              have he : e = pyStrip s := by
                injection h with h1
                exact h1.symm
              subst he
              unfold validate_entrypoint
              rw [pyStrip_idem s, if_neg hne, hsp]
              simp [hw]
          · exact Except.noConfusion h

theorem validateEntrypointToml_idem {v : Toml} {e : List Char}
    (h : validateEntrypointToml v = .ok e) :
    validate_entrypoint e = .ok e := by
  cases v with
  | str s => exact validate_entrypoint_idem h
  | list xs => exact Except.noConfusion h
  | other => exact Except.noConfusion h

theorem validatePythonToml_idem {v : Toml} {p : List Char}
    (h : validatePythonToml v = .ok p) :
    validate_python_version p = .ok p := by
  cases v with
  | str s => exact validate_python_version_idem h
  | list xs => exact Except.noConfusion h
  | other => exact Except.noConfusion h

theorem validatePackageToml_idem {v : Toml} {p : List Char}
    (h : validatePackageToml v = .ok p) :
    validatePackageToml (.str p) = .ok p := by
  cases v with
  | str s => exact validate_package_idem h
  | list xs => exact Except.noConfusion h
  | other => exact Except.noConfusion h

theorem validatePackagesList_idem {xs : List Toml} {ps : List (List Char)}
    (h : validatePackagesList xs = .ok ps) :
    validatePackagesList (ps.map Toml.str) = .ok ps := by
  induction xs generalizing ps with
  | nil =>
      have hps : ps = [] := by
        unfold validatePackagesList at h
        injection h with h1
        exact h1.symm
      subst hps
      rfl
  | cons v vs ih =>
      unfold validatePackagesList at h
      cases hv : validatePackageToml v with
      | error e => rw [hv] at h; exact Except.noConfusion h
      | ok p =>
          rw [hv] at h
          cases hrest : validatePackagesList vs with
          | error e => rw [hrest] at h; exact Except.noConfusion h
          | ok qs =>
              rw [hrest] at h
              have hps : ps = p :: qs := by
                injection h with h1
                exact h1.symm
              subst hps
              show validatePackagesList (.str p :: qs.map .str) = .ok (p :: qs)
              unfold validatePackagesList
              rw [validatePackageToml_idem hv, ih hrest]

/-! ### Inversion and forward lemmas for the manifest checks -/

theorem bind_ok_decomp {α β : Type} {a : Except PyError α}
    {f : α → Except PyError β} {x : β} (h : a.bind f = .ok x) :
    ∃ v, a = .ok v ∧ f v = .ok x := by
  cases a with
  | error e => exact Except.noConfusion h
  | ok v => exact ⟨v, rfl, h⟩

theorem validate_manifest_as_bind (m : RawManifest) :
    validate_manifest m =
      (checkKeys m).bind (fun m0 => (checkProject m0).bind (fun m1 =>
        (checkEntrypoint m1).bind (fun m2 =>
          (checkPython m2).bind checkPackages))) := by
  unfold validate_manifest
  cases hk : checkKeys m <;> simp only [Except.bind]
  case ok m0 =>
    cases hp : checkProject m0 <;> simp only [Except.bind]
    case ok m1 =>
      cases he : checkEntrypoint m1 <;> simp only [Except.bind]
      case ok m2 =>
        cases hpy : checkPython m2 <;> simp only [Except.bind]

theorem checkKeys_inv {m m0 : RawManifest} (h : checkKeys m = .ok m0) :
    m0 = m ∧ m.extraKeys = [] := by
  unfold checkKeys at h
  split at h
  · next hk =>
      constructor
      · injection h with h1
        exact h1.symm
      · exact List.isEmpty_iff.mp hk
  · exact Except.noConfusion h

theorem checkProject_inv {m m1 : RawManifest} (h : checkProject m = .ok m1) :
    m1 = m ∧ ∃ v r, m.project = some v ∧ validateProjectToml v = .ok r := by
  unfold checkProject at h
  cases hp : m.project with
  | none => rw [hp] at h; exact Except.noConfusion h
  | some v =>
      rw [hp] at h
      dsimp only at h
      cases hv : validateProjectToml v with
      | error e => rw [hv] at h; exact Except.noConfusion h
      | ok r =>
          rw [hv] at h
          constructor
          · injection h with h1
            exact h1.symm
          · exact ⟨v, r, rfl, hv⟩

theorem checkEntrypoint_inv {m m2 : RawManifest}
    (h : checkEntrypoint m = .ok m2) :
    ∃ v e, m.entrypoint = some v ∧ validateEntrypointToml v = .ok e ∧
      m2 = { m with entrypoint := some (.str e) } := by
  unfold checkEntrypoint at h
  cases hp : m.entrypoint with
  | none => rw [hp] at h; exact Except.noConfusion h
  | some v =>
      rw [hp] at h
      dsimp only at h
      cases hv : validateEntrypointToml v with
      | error e => rw [hv] at h; exact Except.noConfusion h
      | ok e =>
          rw [hv] at h
          refine ⟨v, e, rfl, hv, ?_⟩
          injection h with h1
          exact h1.symm

theorem checkPython_inv {m m3 : RawManifest} (h : checkPython m = .ok m3) :
    (m.python = none ∧ m3 = m) ∨
      ∃ v p, m.python = some v ∧ validatePythonToml v = .ok p ∧
        m3 = { m with python := some (.str p) } := by
  unfold checkPython at h
  cases hp : m.python with
  | none =>
      rw [hp] at h
      left
      refine ⟨rfl, ?_⟩
      injection h with h1
      exact h1.symm
  | some v =>
      rw [hp] at h
      dsimp only at h
      cases hv : validatePythonToml v with
      | error e => rw [hv] at h; exact Except.noConfusion h
      | ok p =>
          rw [hv] at h
          right
          refine ⟨v, p, rfl, hv, ?_⟩
          injection h with h1
          exact h1.symm

theorem checkPackages_inv {m m' : RawManifest}
    (h : checkPackages m = .ok m') :
    (m.packages = none ∧ m' = m) ∨
      ∃ xs ps, m.packages = some (.list xs) ∧
        validatePackagesList xs = .ok ps ∧
        m' = { m with packages := some (.list (ps.map .str)) } := by
  unfold checkPackages at h
  cases hp : m.packages with
  | none =>
      rw [hp] at h
      left
      refine ⟨rfl, ?_⟩
      injection h with h1
      exact h1.symm
  | some v =>
      rw [hp] at h
      cases v with
      | str s => exact Except.noConfusion h
      | other => exact Except.noConfusion h
      | list xs =>
          dsimp only at h
          cases hv : validatePackagesList xs with
          | error e => rw [hv] at h; exact Except.noConfusion h
          | ok ps =>
              rw [hv] at h
              right
              refine ⟨xs, ps, rfl, hv, ?_⟩
              injection h with h1
              exact h1.symm

theorem checkKeys_fwd {m : RawManifest} (h : m.extraKeys = []) :
    checkKeys m = .ok m := by
  unfold checkKeys
  rw [if_pos (by simp [h])]

theorem checkProject_fwd {m : RawManifest} {v : Toml} {r : List Char}
    (hp : m.project = some v) (hv : validateProjectToml v = .ok r) :
    checkProject m = .ok m := by
  unfold checkProject
  rw [hp]
  dsimp only
  rw [hv]

theorem checkEntrypoint_fwd {m : RawManifest} {e : List Char}
    (hp : m.entrypoint = some (.str e)) (hv : validate_entrypoint e = .ok e) :
    checkEntrypoint m = .ok m := by
  obtain ⟨a, b, c, d, x⟩ := m
  dsimp only at hp
  subst hp
  unfold checkEntrypoint
  dsimp only
  rw [show validateEntrypointToml (.str e) = .ok e from hv]

theorem checkPython_fwd_none {m : RawManifest} (hp : m.python = none) :
    checkPython m = .ok m := by
  unfold checkPython
  rw [hp]

theorem checkPython_fwd_some {m : RawManifest} {p : List Char}
    (hp : m.python = some (.str p))
    (hv : validate_python_version p = .ok p) : checkPython m = .ok m := by
  obtain ⟨a, b, c, d, x⟩ := m
  dsimp only at hp
  subst hp
  unfold checkPython
  dsimp only
  rw [show validatePythonToml (.str p) = .ok p from hv]

theorem checkPackages_fwd_none {m : RawManifest} (hp : m.packages = none) :
    checkPackages m = .ok m := by
  unfold checkPackages
  rw [hp]

theorem checkPackages_fwd_some {m : RawManifest} {ps : List (List Char)}
    (hp : m.packages = some (.list (ps.map Toml.str)))
    (hv : validatePackagesList (ps.map Toml.str) = .ok ps) :
    checkPackages m = .ok m := by
  obtain ⟨a, b, c, d, x⟩ := m
  dsimp only at hp
  subst hp
  unfold checkPackages
  dsimp only
  rw [hv]

/-- C8: manifest validation is idempotent — whenever `validate_manifest`
succeeds, running it again on the result succeeds and returns the result
unchanged (all per-field normalizations are fixed points on normalized
values). -/
theorem c8_manifest_idempotent (m m' : RawManifest)
    (h : validate_manifest m = .ok m') : validate_manifest m' = .ok m' := by
  rw [validate_manifest_as_bind] at h
  obtain ⟨m0, h0, h⟩ := bind_ok_decomp h
  obtain ⟨m1, h1, h⟩ := bind_ok_decomp h
  obtain ⟨m2, h2, h⟩ := bind_ok_decomp h
  obtain ⟨m3, h3, h4⟩ := bind_ok_decomp h
  obtain ⟨rfl, hkeys⟩ := checkKeys_inv h0
  obtain ⟨rfl, v, r, hpj, hvr⟩ := checkProject_inv h1
  obtain ⟨ev, e, hep, hve, rfl⟩ := checkEntrypoint_inv h2
  have hee : validate_entrypoint e = .ok e := validateEntrypointToml_idem hve
  rw [validate_manifest_as_bind]
  rcases checkPython_inv h3 with ⟨hpy, rfl⟩ | ⟨pv, p, hpy, hvp, rfl⟩ <;>
    rcases checkPackages_inv h4 with ⟨hpk, rfl⟩ | ⟨xs, ps, hpk, hvps, rfl⟩ <;>
      dsimp only at hpy hpk ⊢
  · rw [checkKeys_fwd (by dsimp only; exact hkeys)]
    simp only [Except.bind]
    rw [checkProject_fwd (by dsimp only; exact hpj) hvr]
    simp only [Except.bind]
    rw [checkEntrypoint_fwd (by dsimp only) hee]
    simp only [Except.bind]
    rw [checkPython_fwd_none (by dsimp only; exact hpy)]
    simp only [Except.bind]
    exact checkPackages_fwd_none (by dsimp only; exact hpk)
  · rw [checkKeys_fwd (by dsimp only; exact hkeys)]
    simp only [Except.bind]
    rw [checkProject_fwd (by dsimp only; exact hpj) hvr]
    simp only [Except.bind]
    rw [checkEntrypoint_fwd (by dsimp only) hee]
    simp only [Except.bind]
    rw [checkPython_fwd_none (by dsimp only; exact hpy)]
    simp only [Except.bind]
    exact checkPackages_fwd_some (by dsimp only)
      (validatePackagesList_idem hvps)
  · rw [checkKeys_fwd (by dsimp only; exact hkeys)]
    simp only [Except.bind]
    rw [checkProject_fwd (by dsimp only; exact hpj) hvr]
    simp only [Except.bind]
    rw [checkEntrypoint_fwd (by dsimp only) hee]
    simp only [Except.bind]
    rw [checkPython_fwd_some (by dsimp only) (validatePythonToml_idem hvp)]
    simp only [Except.bind]
    exact checkPackages_fwd_none (by dsimp only; exact hpk)
  · rw [checkKeys_fwd (by dsimp only; exact hkeys)]
    simp only [Except.bind]
    rw [checkProject_fwd (by dsimp only; exact hpj) hvr]
    simp only [Except.bind]
    rw [checkEntrypoint_fwd (by dsimp only) hee]
    simp only [Except.bind]
    rw [checkPython_fwd_some (by dsimp only) (validatePythonToml_idem hvp)]
    simp only [Except.bind]
    exact checkPackages_fwd_some (by dsimp only)
      (validatePackagesList_idem hvps)

/-- Concrete instance: a manifest whose python version, entrypoint and
package specifier carry surrounding whitespace validates to its normalized
form, and re-validating that form is the identity. -/
theorem c8_manifest_idempotent_witness :
    validate_manifest
      ⟨some (.str ("app".toList)), some (.str (" 3.12 ".toList)),
        some (.list [.str (" requests ".toList)]),
        some (.str (" python main.py ".toList)), []⟩ =
      .ok ⟨some (.str ("app".toList)), some (.str ("3.12".toList)),
        some (.list [.str ("requests".toList)]),
        some (.str ("python main.py".toList)), []⟩ ∧
    validate_manifest
      ⟨some (.str ("app".toList)), some (.str ("3.12".toList)),
        some (.list [.str ("requests".toList)]),
        some (.str ("python main.py".toList)), []⟩ =
      .ok ⟨some (.str ("app".toList)), some (.str ("3.12".toList)),
        some (.list [.str ("requests".toList)]),
        some (.str ("python main.py".toList)), []⟩ :=
  ⟨rfl,
    c8_manifest_idempotent
      ⟨some (.str ("app".toList)), some (.str (" 3.12 ".toList)),
        some (.list [.str (" requests ".toList)]),
        some (.str (" python main.py ".toList)), []⟩
      ⟨some (.str ("app".toList)), some (.str ("3.12".toList)),
        some (.list [.str ("requests".toList)]),
        some (.str ("python main.py".toList)), []⟩ rfl⟩

/-- C2: for every validated manifest, if the (validated) package list is
non-empty the installer is invoked with exactly
`[pip, "install", "--", p1, …, pn]` as an argument vector, and if it is empty
or absent no installer invocation happens; moreover validation guarantees the
packages field is absent or a list of the validated specifier strings. -/
theorem c2_install_cmd (m c : RawManifest) (pip : List Char)
    (h : validate_manifest m = .ok c) :
    (packagesOf c ≠ [] → build_install_cmd m pip =
      .ok (some (pip :: installLit :: dashDashLit :: packagesOf c))) ∧
    (packagesOf c = [] → build_install_cmd m pip = .ok none) ∧
    (c.packages = none ∨
      ∃ ps, c.packages = some (.list (ps.map Toml.str)) ∧
        packagesOf c = ps) := by
  refine ⟨?_, ?_, ?_⟩
  · intro hne
    unfold build_install_cmd
    rw [h]
    dsimp only
    rw [if_neg (by simp [List.isEmpty_iff, hne])]
  · intro he
    unfold build_install_cmd
    rw [h]
    dsimp only
    rw [if_pos (by simp [List.isEmpty_iff, he])]
  · rw [validate_manifest_as_bind] at h
    obtain ⟨m0, h0, h⟩ := bind_ok_decomp h
    obtain ⟨m1, h1, h⟩ := bind_ok_decomp h
    obtain ⟨m2, h2, h⟩ := bind_ok_decomp h
    obtain ⟨m3, h3, h4⟩ := bind_ok_decomp h
    rcases checkPackages_inv h4 with ⟨hpk, rfl⟩ | ⟨xs, ps, hpk, hvps, rfl⟩
    · exact Or.inl hpk
    · right
      refine ⟨ps, by dsimp only, ?_⟩
      unfold packagesOf
      dsimp only
      rw [List.map_map]
      have hid : ∀ l : List (List Char),
          l.map ((fun v => match v with
            | Toml.str s => s
            | _ => ([] : List Char)) ∘ Toml.str) = l := by
        intro l
        induction l with
        | nil => rfl
        | cons a as ih => simp only [List.map_cons, ih, Function.comp]
      exact hid ps

/-- Concrete instance: two validated packages produce exactly the pip
argument vector with the `--` separator; an empty list produces none. -/
theorem c2_install_cmd_witness :
    validate_manifest
      ⟨some (.str ("app".toList)), none,
        some (.list [.str ("requests".toList), .str (" flask ".toList)]),
        some (.str ("python main.py".toList)), []⟩ =
      .ok ⟨some (.str ("app".toList)), none,
        some (.list [.str ("requests".toList), .str ("flask".toList)]),
        some (.str ("python main.py".toList)), []⟩ ∧
    build_install_cmd
      ⟨some (.str ("app".toList)), none,
        some (.list [.str ("requests".toList), .str (" flask ".toList)]),
        some (.str ("python main.py".toList)), []⟩ ("/env/bin/pip".toList) =
      .ok (some ["/env/bin/pip".toList, "install".toList, "--".toList,
        "requests".toList, "flask".toList]) :=
  ⟨rfl,
    (c2_install_cmd
      ⟨some (.str ("app".toList)), none,
        some (.list [.str ("requests".toList), .str (" flask ".toList)]),
        some (.str ("python main.py".toList)), []⟩
      ⟨some (.str ("app".toList)), none,
        some (.list [.str ("requests".toList), .str ("flask".toList)]),
        some (.str ("python main.py".toList)), []⟩
      ("/env/bin/pip".toList) rfl).1 (by decide)⟩

/-- C6: for every name that passes project-name validation, if a manifest
already exists, declare fails with `FileExistsError` and the filesystem state
is returned untouched — in particular the existing manifest bytes are
unmodified and no write occurs. -/
theorem c6_init_no_overwrite (fs : FS) (name : List Char)
    (pyMajor pyMinor : Nat)
    (hv : exceptIsOk (validate_project_name name) = true)
    (he : fs.manifestExists = true) :
    initCmd fs name pyMajor pyMinor = (fs, .error .fileExistsError) := by
  unfold initCmd
  cases h : validate_project_name name with
  | error e => rw [h] at hv; exact Bool.noConfusion hv
  | ok n =>
      dsimp only
      rw [if_pos he]

/-- Concrete instance: with an existing manifest the state is unchanged. -/
theorem c6_init_no_overwrite_witness :
    exceptIsOk (validate_project_name ("my-app".toList)) = true ∧
    initCmd ⟨true, "project = x".toList⟩ ("my-app".toList) 3 12 =
      (⟨true, "project = x".toList⟩, .error .fileExistsError) :=
  ⟨rfl, c6_init_no_overwrite ⟨true, "project = x".toList⟩ ("my-app".toList)
    3 12 rfl rfl⟩

/-! ### Ship walk facts -/

theorem fileKeepB_not_shipped {f : List Char} (h : fileKeepB f = true) :
    shippedSuffix.isSuffixOf f = false := by
  unfold fileKeepB at h
  split at h
  · exact Bool.noConfusion h
  · split at h
    · exact Bool.noConfusion h
    · next h2 =>
        cases hb : shippedSuffix.isSuffixOf f with
        | false => rfl
        | true => exact absurd hb h2

theorem dirKeepB_clean {d : List Char} (h : dirKeepB d = true) :
    d ≠ envDirName ∧ d.head? ≠ some '.' := by
  unfold dirKeepB at h
  split at h
  · exact Bool.noConfusion h
  · next h2 =>
      split at h
      · exact Bool.noConfusion h
      · next h3 => exact ⟨fun hxx => h2 (Or.inl hxx), h3⟩

mutual
theorem shipWalkTree_clean :
    ∀ (t : DirTree) (pre : List (List Char)),
      (∀ d ∈ pre, d ≠ envDirName ∧ d.head? ≠ some '.') →
      ∀ p ∈ shipWalkTree t pre, cleanEntry p
  | .mk files subdirs, pre, hpre, p, hp => by
      unfold shipWalkTree at hp
      rcases List.mem_append.mp hp with hp | hp
      · obtain ⟨f, hf, rfl⟩ := List.mem_map.mp hp
        constructor
        · rw [List.dropLast_concat]
          exact hpre
        · rw [List.getLastD_concat]
          exact fileKeepB_not_shipped (List.of_mem_filter hf)
      · exact shipWalkDirs_clean subdirs pre hpre p hp
theorem shipWalkDirs_clean :
    ∀ (l : DirList) (pre : List (List Char)),
      (∀ d ∈ pre, d ≠ envDirName ∧ d.head? ≠ some '.') →
      ∀ p ∈ shipWalkDirs l pre, cleanEntry p
  | .nil, pre, _, p, hp => by
      unfold shipWalkDirs at hp
      exact absurd hp (List.not_mem_nil p)
  | .cons d t rest, pre, hpre, p, hp => by
      unfold shipWalkDirs at hp
      rcases List.mem_append.mp hp with hp | hp
      · by_cases hd : dirKeepB d = true
        · rw [if_pos hd] at hp
          refine shipWalkTree_clean t (pre ++ [d]) ?_ p hp
          intro x hx
          rcases List.mem_append.mp hx with hx | hx
          · exact hpre x hx
          · simp only [List.mem_singleton] at hx
            subst hx
            exact dirKeepB_clean hd
        · rw [if_neg hd] at hp
          exact absurd hp (List.not_mem_nil p)
      · exact shipWalkDirs_clean rest pre hpre p hp
end

/-- C7: no file in the archive produced by ship lies under the environment
directory or under any hidden directory, and no archived file name ends in
`_shipped.zip` — in particular neither a previously produced shipped archive
nor the one being written. -/
theorem c7_ship_excludes (t : DirTree) (present : List (List Char) → Bool)
    (p : List (List Char)) (hp : p ∈ shipEntries t present) :
    cleanEntry p := by
  unfold shipEntries at hp
  rcases List.mem_append.mp hp with hp | hp
  · rcases List.mem_append.mp hp with hp | hp
    · exact shipWalkTree_clean t [] (by simp) p hp
    · have hb : p ∈ bundleArcs := List.mem_of_mem_filter hp
      unfold bundleArcs at hb
      simp only [List.mem_cons, List.not_mem_nil, or_false] at hb
      rcases hb with rfl | rfl | rfl | rfl | rfl
      · exact ⟨by decide, by decide⟩
      · exact ⟨by decide, by decide⟩
      · exact ⟨by decide, by decide⟩
      · exact ⟨by decide, by decide⟩
      · exact ⟨by decide, by decide⟩
  · simp only [List.mem_singleton] at hp
    subst hp
    exact ⟨by decide, by decide⟩

/-- Concrete instance: a tree containing the environment directory, a hidden
directory and an old shipped archive yields a clean entry for `main.py`; the
claim theorem applies to it. -/
theorem c7_ship_excludes_witness :
    (["main.py".toList] : List (List Char)) ∈
      shipEntries
        (.mk ["main.py".toList, "app_shipped.zip".toList]
          (.cons (".irongantry_env".toList)
            (.mk ["pyvenv.cfg".toList] .nil)
            (.cons ("srcdir".toList) (.mk ["util.py".toList] .nil) .nil)))
        (fun _ => true) ∧
    cleanEntry ["main.py".toList] :=
  ⟨by decide,
    c7_ship_excludes
      (.mk ["main.py".toList, "app_shipped.zip".toList]
        (.cons (".irongantry_env".toList)
          (.mk ["pyvenv.cfg".toList] .nil)
          (.cons ("srcdir".toList) (.mk ["util.py".toList] .nil) .nil)))
      (fun _ => true) ["main.py".toList] (by decide)⟩
